import Mathlib

/-!
Verification development for the tdf-pool scoring and team-selection core.

The definitions below are a shallow embedding of `src/tdf_pool/score.py`
(rule-driven scoring of result tables) and `src/tdf_pool/best_team.py`
(budget- and cardinality-constrained team selection).  Pandas data frames
are modelled as association-list rows together with an explicit column
list; `scipy.optimize.milp` (an external exact MILP solver) is modelled
as exact minimisation over all 0/1 vectors.
-/

/-! ## Team selection (`best_team.py`) -/

/-- Number of selected entries of a 0/1 vector (`sum(x)` over binary x). -/
def countTrue : List Bool → Nat
  | [] => 0
  | b :: bs => (if b then 1 else 0) + countTrue bs

/-- Dot product of a weight vector with a 0/1 vector (`w @ x`). -/
def dot : List Int → List Bool → Int
  | w :: ws, b :: bs => (if b then w else 0) + dot ws bs
  | _, _ => 0

/-- All 0/1 vectors of a given length: the search space of the binary
integer program (`integrality = 1`, `bounds = (0, 1)`). -/
def boolVectors : Nat → List (List Bool)
  | 0 => [[]]
  | n + 1 => (boolVectors n).map (true :: ·) ++ (boolVectors n).map (false :: ·)

/-- The constraints of `select_best_team`: `LinearConstraint(ones, nriders,
nriders)` forces exactly `nriders` selected, `LinearConstraint(price, 0,
budget)` bounds the total price between 0 and `budget`. -/
def feasPred (price : List Int) (nriders : Nat) (budget : Int) (x : List Bool) : Prop :=
  countTrue x = nriders ∧ 0 ≤ dot price x ∧ dot price x ≤ budget

instance (price : List Int) (nriders : Nat) (budget : Int) (x : List Bool) :
    Decidable (feasPred price nriders budget x) :=
  inferInstanceAs (Decidable (countTrue x = nriders ∧ 0 ≤ dot price x ∧ dot price x ≤ budget))

/-- All feasible assignments of the binary program. -/
def feasList (points price : List Int) (nriders : Nat) (budget : Int) : List (List Bool) :=
  (boolVectors points.length).filter (fun x => decide (feasPred price nriders budget x))

/-- `objective_function = -1 * riders["Points"].values`: the minimised
objective of the program. -/
def objVal (points : List Int) (x : List Bool) : Int :=
  dot (points.map (fun p => -p)) x

/-- First minimiser of `f` among `y :: ys` (the exact-solver model: `milp`
returns a provably optimal feasible point). -/
def bestOf (f : List Bool → Int) (y : List Bool) : List (List Bool) → List Bool
  | [] => y
  | x :: xs => bestOf f (if f x < f y then x else y) xs

/-- Model of `select_best_team(riders, nriders, budget)`: minimise the
negated points over all feasible 0/1 vectors and return
`(optimized_result.x, optimized_result.fun)`; `none` models the
infeasible outcome (`x = None`). -/
def select_best_team (points price : List Int) (nriders : Nat) (budget : Int) :
    Option (List Bool × Int) :=
  match feasList points price nriders budget with
  | [] => none
  | f :: fs =>
      let best := bestOf (objVal points) f fs
      some (best, objVal points best)

/-! ## Scoring (`score.py`)

A pandas results table is modelled as a column list plus rows given as
association lists from column name to cell text.  The nested
`stage.results` structure is a recursive value that is a table, a dict
of children, or some other value (a Series or scalar, which is neither a
`DataFrame` nor a `dict`).  Cell projection of a row to
`required_columns` is not modelled separately because cells are read by
column name; the model assumes `name` is not `"Rider"`/`"Team"`, as in
every shipped template. -/

/-- A pandas row: column name to cell text. -/
abbrev Row := List (String × String)

/-- Read a cell by column name. -/
def cellVal (r : Row) (c : String) : String := (r.lookup c).getD ""

/-- A results table (`pd.DataFrame`). -/
structure Table where
  cols : List String
  rows : List Row
deriving DecidableEq

/-- The nested `stage.results` value. -/
inductive Results where
  | table (t : Table)
  | dict (entries : List (String × Results))
  | scalar (s : String)

/-- Exceptions `scoring_function` can raise (`ValueError`, `TypeError`,
`KeyError`, `AttributeError`, and the unguarded `astype(int)` failure). -/
inductive ScoreErr where
  | keyNotFound (k : String)
  | notTabular
  | attrErr
  | emptyTable
  | missingColumn
  | castFail
deriving DecidableEq

/-- The `points` rule parameter: a column name (pass-through) or an
explicit ladder of point values. -/
inductive PointsSpec where
  | column (c : String)
  | ladder (l : List Int)
deriving DecidableEq

/-- `k in results` for a dict (key membership) or a DataFrame (column
membership); a Series or scalar yields no members in the model. -/
def Results.hasKey : Results → String → Bool
  | .dict m, k => (m.lookup k).isSome
  | .table t, k => t.cols.contains k
  | .scalar _, _ => false

/-- `results[k]`: child of a dict; a DataFrame column access yields a
Series, which the model represents as a scalar node. -/
def Results.getKey : Results → String → Results
  | .dict m, k => (m.lookup k).getD (.scalar "")
  | .table _, _ => .scalar ""
  | .scalar s, _ => .scalar s

/-- The `for k in key` walk of `scoring_function`: descend while the key
is present, otherwise raise when `strict` and return `None` when not. -/
def walk (strict : Bool) : Results → List String → Except ScoreErr (Option Results)
  | r, [] => .ok (some r)
  | r, k :: ks =>
      if r.hasKey k then walk strict (r.getKey k) ks
      else if strict then .error (.keyNotFound k) else .ok none

/-- Rows of a table node (and `[]` on any other node). -/
def tableRows : Results → List Row
  | .table t => t.rows
  | _ => []

/-- Columns of a table node (and `[]` on any other node). -/
def tableCols : Results → List String
  | .table t => t.cols
  | _ => []

/-- A resolved node as named subtables: a single DataFrame becomes
`{"general": df}`, a dict is used as is, anything else is not tabular. -/
def subtablesOf : Results → Option (List (String × Results))
  | .table t => some [("general", .table t)]
  | .dict m => some m
  | .scalar _ => none

/-- The non-finisher status codes of `score.py`. -/
def nonFinishers : List String := ["DNF", "DNS", "NR", "DSQ", "OTL", "DF"]

/-- `result[~result["Rnk"].isin([...])]`, applied only when a column
literally named `"Rnk"` exists. -/
def filterNonFinishers (t : Table) : List Row :=
  if "Rnk" ∈ t.cols then
    t.rows.filter (fun r => decide (cellVal r "Rnk" ∉ nonFinishers))
  else t.rows

/-- Columns `scoring_function` projects the subtable to. -/
def requiredColumns (rank_by : String) (points : PointsSpec) : List String :=
  ["Rider", "Team", rank_by] ++ (match points with | .column c => [c] | .ladder _ => [])

/-- Digit-string value accumulator for the model of Python `int(...)`. -/
def natOfDigitsAux : List Char → Nat → Option Nat
  | [], acc => some acc
  | c :: cs, acc => if c.isDigit then natOfDigitsAux cs (acc * 10 + (c.toNat - 48)) else none

/-- Model of Python `int(str)`: an optional minus sign and digits. -/
def parseInt? (s : String) : Option Int :=
  match s.data with
  | [] => none
  | c :: cs =>
      if c = '-' then
        match cs with
        | [] => none
        | _ => (natOfDigitsAux cs 0).map (fun n => -(n : Int))
      else (natOfDigitsAux (c :: cs) 0).map (fun n => (n : Int))

/-- `result.astype({rank_by: int})`: parse the rank cell of every row;
a failing cast is always fatal (no `strict` gate in the source). -/
def parseRanks (rank_by : String) : List Row → Except ScoreErr (List (Row × Int))
  | [] => .ok []
  | r :: rs =>
      match parseInt? (cellVal r rank_by) with
      | some n =>
          match parseRanks rank_by rs with
          | .error e => .error e
          | .ok ps => .ok ((r, n) :: ps)
      | none => .error .castFail

/-- Comparison used by `sort_values(by=rank_by, ascending=ascending)`.
The source relies on the pandas default sort kind (quicksort), whose
order among equal keys is implementation-defined; the model fixes a
deterministic insertion sort and no claim about tie order is settled
from it. -/
def rankLE (ascending : Bool) (a b : Row × Int) : Prop :=
  if ascending then a.2 ≤ b.2 else b.2 ≤ a.2

instance (ascending : Bool) : DecidableRel (rankLE ascending) :=
  fun a b => inferInstanceAs (Decidable (if ascending then a.2 ≤ b.2 else b.2 ≤ a.2))

/-- `points[(-1 * len(result)):]`: when fewer rows than ladder entries,
keep the trailing entries of the ladder. -/
def trimLadder (n : Nat) (points : List Int) : List Int :=
  if n < points.length then points.drop (points.length - n) else points

/-- Ladder-mode assignment: trim the ladder to the row count when it is
longer, take the first `len(points)` sorted rows, and pair them with the
ladder values positionally. -/
def assignLadder {α : Type _} (rows : List α) (points : List Int) : List (α × Int) :=
  let pts := trimLadder rows.length points
  (rows.take pts.length).zip pts

/-- One row of a rule's output: rider, team, points. -/
abbrev PRow := String × String × Int

/-- Pass-through mode: `result[name] = result[points].astype(int)`;
every sorted row keeps its own points-column value, cast to int. -/
def passPoints (c : String) : List (Row × Int) → Except ScoreErr (List PRow)
  | [] => .ok []
  | (r, _) :: rs =>
      match parseInt? (cellVal r c) with
      | some p =>
          match passPoints c rs with
          | .error e => .error e
          | .ok ps => .ok ((cellVal r "Rider", cellVal r "Team", p) :: ps)
      | none => .error .castFail

/-- Cast the rank column, sort by it, and assign points (pass-through or
ladder): the body of `scoring_function`'s loop once a subtable has
survived the empty and missing-column checks.  Also returns the
(possibly trimmed) points spec, because the source rebinds `points` so a
trim carries over to later subtables of the same rule. -/
def scoreEligibleRows (rank_by : String) (points : PointsSpec) (ascending : Bool)
    (rows : List Row) : Except ScoreErr (List PRow × PointsSpec) :=
  match parseRanks rank_by rows with
  | .error e => .error e
  | .ok parsed =>
      let sorted := List.insertionSort (rankLE ascending) parsed
      match points with
      | .column c =>
          match passPoints c sorted with
          | .error e => .error e
          | .ok prs => .ok (prs, points)
      | .ladder l =>
          let assigned := assignLadder sorted l
          .ok (assigned.map (fun rp => (cellVal rp.1.1 "Rider", cellVal rp.1.1 "Team", rp.2)),
            .ladder (trimLadder sorted.length l))

/-- The per-subtable step of `scoring_function`'s loop: filter
non-finishers, handle the empty and missing-column cases, then score the
eligible rows. -/
def processSubtable (rank_by : String) (points : PointsSpec) (ascending strict : Bool)
    (t : Table) : Except ScoreErr (Option (List PRow) × PointsSpec) :=
  let rows := filterNonFinishers t
  if rows.isEmpty then
    if strict then .error .emptyTable else .ok (none, points)
  else if (requiredColumns rank_by points).all (fun c => decide (c ∈ t.cols)) then
    match scoreEligibleRows rank_by points ascending rows with
    | .error e => .error e
    | .ok (prs, pts2) => .ok (some prs, pts2)
  else if strict then .error .missingColumn
  else .ok (none, points)

/-- Loop of `scoring_function` over the named subtables, skipping names
in `key_filter`, collecting the non-`None` contributions, and threading
the points spec (the source-level `points` rebinding). -/
def processAll (rank_by : String) (ascending strict : Bool) (key_filter : List String) :
    PointsSpec → List (String × Results) → Except ScoreErr (List (List PRow))
  | _, [] => .ok []
  | pts, (nm, child) :: rest =>
      if nm ∈ key_filter then processAll rank_by ascending strict key_filter pts rest
      else
        match child with
        | .table t =>
            match processSubtable rank_by pts ascending strict t with
            | .error e => .error e
            | .ok (res, pts2) =>
                match processAll rank_by ascending strict key_filter pts2 rest with
                | .error e => .error e
                | .ok ls => .ok (match res with | none => ls | some l => l :: ls)
        | _ => .error .attrErr

/-- A `(Rider, Team)` group key. -/
abbrev Key := String × String

/-- A merged row: group key plus one integer cell per point column. -/
abbrev MRow := Key × List (String × Int)

/-- Code-point lexicographic comparison of character lists (the string
order Python uses when `groupby` sorts its keys). -/
def charListLt : List Char → List Char → Bool
  | [], [] => false
  | [], _ :: _ => true
  | _ :: _, [] => false
  | a :: as, b :: bs =>
      if a.toNat < b.toNat then true
      else if b.toNat < a.toNat then false
      else charListLt as bs

/-- Strict string order by code points. -/
def strLt (a b : String) : Bool := charListLt a.data b.data

/-- Lexicographic order on group keys (`groupby` sorts its keys). -/
def keyLE (a b : Key) : Prop :=
  (strLt a.1 b.1 || (a.1 == b.1 && !(strLt b.2 a.2))) = true

instance : DecidableRel keyLE :=
  fun a b => inferInstanceAs (Decidable (_ = true))

/-- Distinct group keys of a row collection. -/
def keysOf (rows : List MRow) : List Key := (rows.map Prod.fst).dedup

/-- Grouped sum of one column over all rows with the given key; a row
without the column contributes 0 (`NaN` skipped by `sum`). -/
def sumAt (rows : List MRow) (k : Key) (c : String) : Int :=
  ((rows.filter (fun r => decide (r.1 = k))).map (fun r => (r.2.lookup c).getD 0)).sum

/-- `concat(...).groupby(["Rider", "Team"]).agg("sum")`: one output row
per key, keys sorted, every column summed. -/
def groupRows (cols : List String) (rows : List MRow) : List MRow :=
  (List.insertionSort keyLE (keysOf rows)).map (fun k => (k, cols.map (fun c => (c, sumAt rows k c))))

/-- A merged points frame (`DataFrame` keyed by rider and team). -/
structure Frame where
  cols : List String
  rows : List MRow
deriving DecidableEq

/-- Value of a point column in a merged row (0 when absent). -/
def colValOf (r : MRow) (c : String) : Int := (r.2.lookup c).getD 0

/-- Descending order on a named points column, used for the final
`sort_values(name, ascending=False)` of a rule evaluation. -/
def ptsDescLE (c : String) (a b : MRow) : Prop := colValOf b c ≤ colValOf a c

instance (c : String) : DecidableRel (ptsDescLE c) :=
  fun a b => inferInstanceAs (Decidable (colValOf b c ≤ colValOf a c))

/-- Final grouping of a rule's contributions: group-sum the single
points column and sort descending by it. -/
def finalizePodium (name : String) (prows : List PRow) : Frame :=
  let rows : List MRow := prows.map (fun p => ((p.1, p.2.1), [(name, p.2.2)]))
  ⟨[name], List.insertionSort (ptsDescLE name) (groupRows [name] rows)⟩

/-- Model of `scoring_function(stage, key, key_filter, rank_by, points,
name, ascending, strict)`; `.ok none` is the `None` (not applicable)
return. -/
def scoring_function (res : Results) (key key_filter : List String) (rank_by : String)
    (points : PointsSpec) (name : Option String) (ascending strict : Bool) :
    Except ScoreErr (Option Frame) :=
  let nm := name.getD rank_by
  match walk strict res key with
  | .error e => .error e
  | .ok none => .ok none
  | .ok (some node) =>
      match subtablesOf node with
      | none => if strict then .error .notTabular else .ok none
      | some subs =>
          match processAll rank_by ascending strict key_filter points subs with
          | .error e => .error e
          | .ok podia =>
              if podia.isEmpty then .ok none
              else .ok (some (finalizePodium nm podia.flatten))

/-- Sum of the listed point columns of one merged row (`axis=1` sum). -/
def sumOverCols (vs : List (String × Int)) (cols : List String) : Int :=
  (cols.map (fun c => (vs.lookup c).getD 0)).sum

/-- `podium["Total"] = ...`: overwrite the column when present, append
it otherwise. -/
def setCol (vs : List (String × Int)) (c : String) (v : Int) : List (String × Int) :=
  if (vs.lookup c).isSome then vs.map (fun p => if p.1 = c then (c, v) else p) else vs ++ [(c, v)]

/-- `pd.concat(podia).groupby(["Rider", "Team"]).agg("sum")` over whole
frames: union of columns, grouped sum of all rows. -/
def mergeFrames (fs : List Frame) : Frame :=
  let cols := ((fs.map Frame.cols).flatten).dedup
  ⟨cols, groupRows cols ((fs.map Frame.rows).flatten)⟩

/-- Recompute the `Total` column as the row-wise sum over `pcols`. -/
def addTotal (pcols : List String) (f : Frame) : Frame :=
  ⟨(if "Total" ∈ f.cols then f.cols else f.cols ++ ["Total"]),
    f.rows.map (fun r => (r.1, setCol r.2 "Total" (sumOverCols r.2 pcols)))⟩

/-- Descending order on `Total` for the final ledger sort. -/
def totalDescLE (a b : MRow) : Prop := colValOf b "Total" ≤ colValOf a "Total"

instance : DecidableRel totalDescLE :=
  fun a b => inferInstanceAs (Decidable (colValOf b "Total" ≤ colValOf a "Total"))

/-- Sort a ledger by `Total` descending. -/
def sortByTotal (f : Frame) : Frame := ⟨f.cols, List.insertionSort totalDescLE f.rows⟩

/-- The keyword arguments of one scoring rule of the template. -/
structure Rule where
  key : List String
  key_filter : List String := []
  rank_by : String := "Rnk"
  points : PointsSpec
  name : Option String := none
  ascending : Bool := true
  strict : Bool := false

/-- Apply one rule (`scoring_function(stage, **kwargs)`). -/
def evalRule (res : Results) (r : Rule) : Except ScoreErr (Option Frame) :=
  scoring_function res r.key r.key_filter r.rank_by r.points r.name r.ascending r.strict

/-- Run all rules and keep the non-`None` podiums. -/
def collectPodia (res : Results) : List Rule → Except ScoreErr (List Frame)
  | [] => .ok []
  | r :: rs =>
      match evalRule res r with
      | .error e => .error e
      | .ok p =>
          match collectPodia res rs with
          | .error e => .error e
          | .ok ps => .ok (match p with | none => ps | some f => f :: ps)

/-- Model of `score_stage`: apply the stage rules, merge, and recompute
`Total` from all point columns (`point_columns` excludes only `Rider`
and `Team` at stage level). -/
def score_stage (res : Results) (rules : List Rule) : Except ScoreErr (Option Frame) :=
  match collectPodia res rules with
  | .error e => .error e
  | .ok podia =>
      if podia.isEmpty then .ok none
      else
        let merged := mergeFrames podia
        .ok (some (sortByTotal (addTotal merged.cols merged)))

/-- Per-stage ledgers of a race (skipping stages that yield `None`). -/
def collectStageLedgers (rules : List Rule) : List Results → Except ScoreErr (List Frame)
  | [] => .ok []
  | s :: ss =>
      match score_stage s rules with
      | .error e => .error e
      | .ok p =>
          match collectStageLedgers rules ss with
          | .error e => .error e
          | .ok ps => .ok (match p with | none => ps | some f => f :: ps)

/-- Model of `score_race`: stage ledgers plus the race rules evaluated
on the final stage, merged, with `Total` recomputed over the point
columns (`point_columns` excludes `Rider`, `Team` and `Total`). -/
def score_race (stages : List Results) (stageRules raceRules : List Rule)
    (scoreStages : Bool) : Except ScoreErr (Option Frame) :=
  match (if scoreStages then collectStageLedgers stageRules stages else .ok []) with
  | .error e => .error e
  | .ok podia1 =>
      match (match stages.getLast? with
             | none => Except.ok []
             | some s => collectPodia s raceRules) with
      | .error e => .error e
      | .ok podia2 =>
          let podia := podia1 ++ podia2
          if podia.isEmpty then .ok none
          else
            let merged := mergeFrames podia
            .ok (some (sortByTotal (addTotal (merged.cols.filter (fun c => decide (c ≠ "Total"))) merged)))

deriving instance DecidableEq for Except

/-- Value of a ledger at a group key and column (0 when either is
absent): the observable content of a ledger row. -/
def frameVal (f : Frame) (k : Key) (c : String) : Int :=
  match f.rows.find? (fun r => decide (r.1 = k)) with
  | none => 0
  | some r => (r.2.lookup c).getD 0

/-- Well-formedness of a frame as pandas guarantees it: every cell of a
row belongs to a declared column of the frame. -/
def FrameWF (f : Frame) : Prop := ∀ r ∈ f.rows, ∀ p ∈ r.2, p.1 ∈ f.cols

instance (f : Frame) : Decidable (FrameWF f) :=
  inferInstanceAs (Decidable (∀ r ∈ f.rows, ∀ p ∈ r.2, p.1 ∈ f.cols))

/-! ## Lemmas about the optimizer model -/

theorem countTrue_le_length (x : List Bool) : countTrue x ≤ x.length := by
  induction x with
  | nil => simp [countTrue]
  | cons b bs ih => cases b <;> simp [countTrue] <;> omega

theorem mem_boolVectors {x : List Bool} {n : Nat} : x ∈ boolVectors n ↔ x.length = n := by
  induction n generalizing x with
  | zero => simp [boolVectors, List.length_eq_zero]
  | succ m ih =>
    constructor
    · intro hx
      simp only [boolVectors, List.mem_append, List.mem_map] at hx
      rcases hx with ⟨v, hv, rfl⟩ | ⟨v, hv, rfl⟩ <;> simp [ih.mp hv]
    · intro hx
      match x, hx with
      | b :: xs, hx =>
        have hxs : xs ∈ boolVectors m := ih.mpr (by simpa using hx)
        cases b
        · simp only [boolVectors, List.mem_append, List.mem_map]
          exact Or.inr ⟨xs, hxs, rfl⟩
        · simp only [boolVectors, List.mem_append, List.mem_map]
          exact Or.inl ⟨xs, hxs, rfl⟩

theorem bestOf_mem (f : List Bool → Int) (y : List Bool) (ys : List (List Bool)) :
    bestOf f y ys ∈ y :: ys := by
  induction ys generalizing y with
  | nil => simp [bestOf]
  | cons x xs ih =>
    simp only [bestOf]
    by_cases h : f x < f y
    · simp only [h, if_pos]
      have := ih x
      simp only [List.mem_cons] at this ⊢
      tauto
    · simp only [h, if_neg, not_false_iff]
      have := ih y
      simp only [List.mem_cons] at this ⊢
      tauto

theorem bestOf_le (f : List Bool → Int) (y : List Bool) (ys : List (List Bool)) :
    ∀ z ∈ y :: ys, f (bestOf f y ys) ≤ f z := by
  induction ys generalizing y with
  | nil => intro z hz; simp at hz; simp [bestOf, hz]
  | cons x xs ih =>
    intro z hz
    simp only [List.mem_cons] at hz
    have hw : f (if f x < f y then x else y) ≤ f y ∧ f (if f x < f y then x else y) ≤ f x := by
      by_cases h : f x < f y <;> simp [h] <;> omega
    rcases hz with rfl | rfl | hz
    · exact le_trans (ih _ _ (List.mem_cons_self _ _)) hw.1
    · exact le_trans (ih _ _ (List.mem_cons_self _ _)) hw.2
    · exact ih _ _ (List.mem_cons_of_mem _ hz)

theorem select_best_team_spec {points price : List Int} {nriders : Nat} {budget : Int}
    {x : List Bool} {v : Int}
    (h : select_best_team points price nriders budget = some (x, v)) :
    x ∈ feasList points price nriders budget ∧
      (∀ z ∈ feasList points price nriders budget, objVal points x ≤ objVal points z) ∧
      v = objVal points x := by
  unfold select_best_team at h
  cases hf : feasList points price nriders budget with
  | nil => rw [hf] at h; simp at h
  | cons f fs =>
    rw [hf] at h
    simp only [Option.some.injEq, Prod.mk.injEq] at h
    obtain ⟨rfl, rfl⟩ := h
    refine ⟨?_, ?_, rfl⟩
    · exact bestOf_mem (objVal points) f fs
    · intro z hz
      exact bestOf_le (objVal points) f fs z hz

theorem mem_feasList {points price : List Int} {nriders : Nat} {budget : Int}
    {x : List Bool} :
    x ∈ feasList points price nriders budget ↔
      x.length = points.length ∧ feasPred price nriders budget x := by
  unfold feasList
  rw [List.mem_filter, mem_boolVectors, decide_eq_true_eq]

theorem objVal_eq_neg_dot (points : List Int) (x : List Bool) :
    objVal points x = -(dot points x) := by
  unfold objVal
  induction points generalizing x with
  | nil => simp [dot]
  | cons w ws ih =>
    cases x with
    | nil => simp [dot]
    | cons b bs => cases b <;> simp [dot, ih] <;> ring

theorem getD_set_of_ne {α : Type _} (l : List α) (a d : α) {i j : Nat} (h : i ≠ j) :
    (l.set i a).getD j d = l.getD j d := by
  induction l generalizing i j with
  | nil => simp
  | cons b bs ih =>
    cases i with
    | zero =>
      cases j with
      | zero => exact absurd rfl h
      | succ m => simp
    | succ k =>
      cases j with
      | zero => simp
      | succ m => simpa using ih (fun hc => h (by omega))

theorem countTrue_set_false {x : List Bool} {i : Nat} (hi : i < x.length)
    (ht : x.getD i false = true) : countTrue x = countTrue (x.set i false) + 1 := by
  induction x generalizing i with
  | nil => simp at hi
  | cons b bs ih =>
    cases i with
    | zero =>
      simp only [List.getD_cons_zero] at ht
      subst ht
      simp [countTrue]
      omega
    | succ k =>
      simp only [List.getD_cons_succ] at ht
      have hk : k < bs.length := by simpa using hi
      have := ih hk ht
      cases b <;> simp [countTrue, List.set] <;> omega

theorem countTrue_set_true {x : List Bool} {i : Nat} (hi : i < x.length)
    (hf : x.getD i false = false) : countTrue (x.set i true) = countTrue x + 1 := by
  induction x generalizing i with
  | nil => simp at hi
  | cons b bs ih =>
    cases i with
    | zero =>
      simp only [List.getD_cons_zero] at hf
      subst hf
      simp [countTrue]
      omega
    | succ k =>
      simp only [List.getD_cons_succ] at hf
      have hk : k < bs.length := by simpa using hi
      have := ih hk hf
      cases b <;> simp [countTrue, List.set] <;> omega

theorem dot_set (ws : List Int) (x : List Bool) (i : Nat) (b : Bool) (h : i < x.length) :
    dot ws (x.set i b) =
      dot ws x - (if x.getD i false then ws.getD i 0 else 0) +
        (if b then ws.getD i 0 else 0) := by
  induction x generalizing ws i with
  | nil => simp at h
  | cons a xs ih =>
    cases i with
    | zero =>
      cases ws with
      | nil => cases a <;> cases b <;> simp [dot]
      | cons w ws2 => cases a <;> cases b <;> simp [dot] <;> ring
    | succ k =>
      cases ws with
      | nil => cases a <;> cases b <;> simp [dot]
      | cons w ws2 =>
        have hk : k < xs.length := by simpa using h
        have := ih ws2 k hk
        simp only [List.set, dot, List.getD_cons_succ]
        omega

theorem dot_replicate (c : Int) (y : List Bool) :
    dot (List.replicate y.length c) y = c * countTrue y := by
  induction y with
  | nil => simp [dot, countTrue]
  | cons b bs ih =>
    cases b <;> simp [List.replicate, dot, countTrue, ih] <;> ring

theorem pairwise_ne_getD {l : List Int} (h : List.Pairwise (fun a b => a ≠ b) l)
    {i j : Nat} (hi : i < l.length) (hj : j < l.length) (hij : i ≠ j) :
    l.getD i 0 ≠ l.getD j 0 := by
  rw [List.getD_eq_getElem l 0 hi, List.getD_eq_getElem l 0 hj]
  rw [List.pairwise_iff_getElem] at h
  rcases Nat.lt_or_ge i j with hlt | hge
  · exact h i j hi hj hlt
  · have : j < i := by omega
    exact fun he => (h j i hj hi this) he.symm

/-! ## Claim theorems for the team optimizer -/

/-- Claim C2 counterexample: on the spec's own example (Points
`[10,8,6,4]`, Price `[30,30,30,30]`, teamSize 3, budget 90) the value
returned by `select_best_team` is the solver's minimised objective
`-24`, not `24` (the sum of the selected Points). -/
theorem c2_objective_sign_counterexample :
    (select_best_team [10, 8, 6, 4] [30, 30, 30, 30] 3 90).map Prod.snd = some (-24) ∧
      ((-24 : Int) ≠ 24) := by
  constructor
  · decide
  · decide

/-- Claim C2 (amended): on the example input, `select_best_team` selects
exactly the first three candidates and returns the minimised objective
value `-24`, the negated sum of the selected Points. -/
theorem c2_selection_and_value :
    select_best_team [10, 8, 6, 4] [30, 30, 30, 30] 3 90 =
      some ([true, true, true, false], -24) ∧
      (-24 : Int) = -(10 + 8 + 6) := by
  constructor
  · decide
  · decide

/-- Claim C3: every selection returned by `select_best_team` selects
exactly `nriders` candidates within budget; and when the budget never
binds (every `nriders`-sized selection is affordable) and all Points are
pairwise distinct, every selected candidate has strictly more Points
than every unselected one, i.e. the selection is exactly the top
`nriders` candidates by Points. -/
theorem c3_selection_constraints_topk (points price : List Int) (nriders : Nat)
    (budget : Int) (x : List Bool) (v : Int)
    (hsel : select_best_team points price nriders budget = some (x, v)) :
    (countTrue x = nriders ∧ 0 ≤ dot price x ∧ dot price x ≤ budget) ∧
      (List.Pairwise (fun a b => a ≠ b) points →
        (∀ y : List Bool, y.length = points.length → countTrue y = nriders →
          0 ≤ dot price y ∧ dot price y ≤ budget) →
        ∀ i j, i < points.length → j < points.length →
          x.getD i false = true → x.getD j false = false →
          points.getD j 0 < points.getD i 0) := by
  obtain ⟨hmem, hopt, hv⟩ := select_best_team_spec hsel
  obtain ⟨hlen, hfp⟩ := mem_feasList.mp hmem
  refine ⟨hfp, ?_⟩
  intro hdist hb i j hi hj hxi hxj
  have hij : i ≠ j := by
    intro he; rw [he, hxj] at hxi; exact Bool.false_ne_true hxi
  have hiL : i < x.length := by omega
  have hjL : j < x.length := by omega
  have hjL2 : j < (x.set i false).length := by simpa using hjL
  have hgj : (x.set i false).getD j false = false := by
    rw [getD_set_of_ne x false false hij]; exact hxj
  have hcount1 : countTrue x = countTrue (x.set i false) + 1 :=
    countTrue_set_false hiL hxi
  have hcount2 : countTrue ((x.set i false).set j true) = countTrue (x.set i false) + 1 :=
    countTrue_set_true hjL2 hgj
  have hcx : countTrue x = nriders := hfp.1
  have hcy : countTrue ((x.set i false).set j true) = nriders := by
    rw [hcount2]; omega
  have hleny : ((x.set i false).set j true).length = points.length := by
    simpa using hlen
  have hby := hb ((x.set i false).set j true) hleny hcy
  have hymem : ((x.set i false).set j true) ∈ feasList points price nriders budget :=
    mem_feasList.mpr ⟨hleny, hcy, hby.1, hby.2⟩
  have hle := hopt _ hymem
  rw [objVal_eq_neg_dot, objVal_eq_neg_dot] at hle
  have d1 : dot points (x.set i false) = dot points x - points.getD i 0 := by
    have := dot_set points x i false hiL
    rw [hxi] at this
    simpa using this
  have d2 : dot points ((x.set i false).set j true) =
      dot points (x.set i false) + points.getD j 0 := by
    have h3 := dot_set points (x.set i false) j true hjL2
    rw [hgj] at h3
    simpa using h3
  have hdots : dot points ((x.set i false).set j true) =
      dot points x - points.getD i 0 + points.getD j 0 := by rw [d2, d1]
  have hne := pairwise_ne_getD hdist hi hj hij
  omega

/-- Witness for C3 at the spec's example: the returned selection
`[true, true, true, false]` has exactly 3 members and the unselected
candidate's Points (4) are strictly below a selected candidate's (10). -/
theorem c3_witness :
    countTrue [true, true, true, false] = 3 ∧
      ([10, 8, 6, 4] : List Int).getD 3 0 < ([10, 8, 6, 4] : List Int).getD 0 0 := by
  have h := c3_selection_constraints_topk [10, 8, 6, 4] [30, 30, 30, 30] 3 90
    [true, true, true, false] (-24) (by decide)
  refine ⟨h.1.1, ?_⟩
  refine h.2 (by decide) ?_ 0 3 (by decide) (by decide) (by decide) (by decide)
  intro y hy hc
  have hrep : ([30, 30, 30, 30] : List Int) = List.replicate y.length 30 := by
    rw [hy]; decide
  rw [hrep, dot_replicate, hc]
  omega

/-- Claim C4: when no 0/1 assignment meets both constraints,
`select_best_team` returns the explicit infeasible marker (`x = None`),
and any returned selection always satisfies both constraints. -/
theorem c4_infeasible_reports_none (points price : List Int) (nriders : Nat)
    (budget : Int) :
    ((∀ x : List Bool, x.length = points.length →
        ¬ feasPred price nriders budget x) →
      select_best_team points price nriders budget = none) ∧
    (∀ x v, select_best_team points price nriders budget = some (x, v) →
      feasPred price nriders budget x) := by
  constructor
  · intro h
    cases hf : feasList points price nriders budget with
    | nil => unfold select_best_team; rw [hf]
    | cons f fs =>
      have hmem : f ∈ feasList points price nriders budget := by
        rw [hf]; exact List.mem_cons_self f fs
      obtain ⟨hlen, hfp⟩ := mem_feasList.mp hmem
      exact absurd hfp (h f hlen)
  · intro x v hsel
    obtain ⟨hmem, _, _⟩ := select_best_team_spec hsel
    exact (mem_feasList.mp hmem).2

/-- Witness for C4: five riders cannot be selected from four candidates,
so the optimizer reports infeasibility. -/
theorem c4_witness :
    select_best_team [10, 8, 6, 4] [30, 30, 30, 30] 5 100 = none := by
  refine (c4_infeasible_reports_none [10, 8, 6, 4] [30, 30, 30, 30] 5 100).1 ?_
  intro x hx hp
  have h1 := countTrue_le_length x
  rw [hx] at h1
  have h2 := hp.1
  simp only [List.length_cons, List.length_nil] at h1
  omega

/-! ## Claim theorems for the scoring rules -/

/-- Claim C1: in ladder mode over N sorted eligible rows and a ladder of
length L, if N ≥ L exactly the first L rows receive the ladder values
positionally; if N < L the ladder is reduced to its trailing N entries
and assigned positionally to all N rows, so the top finisher receives
the (L−N+1)-th ladder value. -/
theorem c1_ladder_truncation {α : Type _} (rows : List α) (pts : List Int) :
    (pts.length ≤ rows.length →
      assignLadder rows pts = (rows.take pts.length).zip pts) ∧
    (rows.length < pts.length →
      assignLadder rows pts = rows.zip (pts.drop (pts.length - rows.length))) ∧
    (∀ r rest, rows = r :: rest → rows.length < pts.length →
      (assignLadder rows pts).head? =
        some (r, pts.getD (pts.length - rows.length) 0)) := by
  refine ⟨?_, ?_, ?_⟩
  · intro h
    unfold assignLadder trimLadder
    rw [if_neg (by omega)]
  · intro h
    unfold assignLadder trimLadder
    rw [if_pos h]
    have hlen : (pts.drop (pts.length - rows.length)).length = rows.length := by
      rw [List.length_drop]; omega
    simp only [hlen, List.take_length]
  · intro r rest hr h
    unfold assignLadder trimLadder
    rw [if_pos h]
    have hlen : (pts.drop (pts.length - rows.length)).length = rows.length := by
      rw [List.length_drop]; omega
    simp only [hlen, List.take_length]
    have hnd : pts.length - rows.length < pts.length := by
      subst hr; simp only [List.length_cons] at h ⊢; omega
    have hd : pts.drop (pts.length - rows.length) =
        pts.getD (pts.length - rows.length) 0 :: pts.drop (pts.length - rows.length + 1) := by
      rw [List.getD_eq_getElem pts 0 hnd]
      exact (List.drop_eq_getElem_cons hnd)
    subst hr
    rw [hd]
    rfl

/-- Witness for C1 at the spec's example: ladder `[50,40,30,20,10]` with
three finishers is reduced to `[30,20,10]`, the top finisher receiving
30, and with five finishers it is assigned unchanged. -/
theorem c1_ladder_truncation_witness :
    assignLadder ["a", "b", "c"] [50, 40, 30, 20, 10] =
        [("a", 30), ("b", 20), ("c", 10)] ∧
      (assignLadder ["a", "b", "c"] [50, 40, 30, 20, 10]).head? = some ("a", 30) ∧
      assignLadder ["a", "b", "c", "d", "e"] [50, 40, 30, 20, 10] =
        [("a", 50), ("b", 40), ("c", 30), ("d", 20), ("e", 10)] := by
  refine ⟨?_, ?_, ?_⟩
  · have h := (c1_ladder_truncation ["a", "b", "c"] [50, 40, 30, 20, 10]).2.1 (by decide)
    rw [h]; decide
  · have h := (c1_ladder_truncation ["a", "b", "c"] [50, 40, 30, 20, 10]).2.2
      "a" ["b", "c"] rfl (by decide)
    rw [h]; decide
  · have h := (c1_ladder_truncation ["a", "b", "c", "d", "e"] [50, 40, 30, 20, 10]).1
      (by decide)
    rw [h]; decide

/-- Claim C7: walking `rule.path`, a missing key makes the rule
evaluation return the silent NotApplicable signal (`None`) when
`strict` is false, and raise the missing-key failure exactly when
`strict` is true; the walk itself never raises with `strict` false, and
`scoring_function` propagates both outcomes. -/
theorem c7_missing_path_strict (res : Results) (ks : List String) :
    ((∃ k, walk true res ks = .error (.keyNotFound k)) ↔ walk false res ks = .ok none) ∧
    (∀ e, walk false res ks ≠ .error e) ∧
    (∀ kf rb pts nm asc, walk false res ks = .ok none →
      scoring_function res ks kf rb pts nm asc false = .ok none) ∧
    (∀ kf rb pts nm asc k, walk true res ks = .error (.keyNotFound k) →
      scoring_function res ks kf rb pts nm asc true = .error (.keyNotFound k)) := by
  have hmain : ∀ (ks2 : List String) (r : Results),
      ((∃ k, walk true r ks2 = .error (.keyNotFound k)) ↔ walk false r ks2 = .ok none) ∧
      (∀ e, walk false r ks2 ≠ .error e) := by
    intro ks2
    induction ks2 with
    | nil =>
      intro r
      constructor
      · simp [walk]
      · intro e; simp [walk]
    | cons k ks2 ih =>
      intro r
      by_cases hk : r.hasKey k
      · have h1 : walk true r (k :: ks2) = walk true (r.getKey k) ks2 := by
          simp [walk, hk]
        have h2 : walk false r (k :: ks2) = walk false (r.getKey k) ks2 := by
          simp [walk, hk]
        rw [h1, h2]
        exact ih (r.getKey k)
      · have h1 : walk true r (k :: ks2) = .error (.keyNotFound k) := by
          simp [walk, hk]
        have h2 : walk false r (k :: ks2) = .ok none := by
          simp [walk, hk]
        rw [h1, h2]
        exact ⟨⟨fun _ => rfl, fun _ => ⟨k, rfl⟩⟩, fun e h => by exact (Except.noConfusion h)⟩
  refine ⟨(hmain ks res).1, (hmain ks res).2, ?_, ?_⟩
  · intro kf rb pts nm asc h
    unfold scoring_function
    rw [h]
  · intro kf rb pts nm asc k h
    unfold scoring_function
    rw [h]

/-- Witness for C7: a path key absent from a concrete results dict gives
`None` without `strict` and the missing-key failure with `strict`. -/
theorem c7_missing_path_strict_witness :
    scoring_function (.dict [("a", .scalar "")]) ["b"] [] "Rnk" (.ladder [1]) none true false =
        .ok none ∧
      scoring_function (.dict [("a", .scalar "")]) ["b"] [] "Rnk" (.ladder [1]) none true true =
        .error (.keyNotFound "b") := by
  constructor
  · exact (c7_missing_path_strict (.dict [("a", .scalar "")]) ["b"]).2.2.1
      [] "Rnk" (.ladder [1]) none true rfl
  · exact (c7_missing_path_strict (.dict [("a", .scalar "")]) ["b"]).2.2.2
      [] "Rnk" (.ladder [1]) none true "b" rfl

/-- Claim C10: the non-finisher filter looks only for a column literally
named `"Rnk"`: a subtable without such a column loses no rows, and in a
concrete rule evaluation ranking by `"Pos"`, a rider carrying `"DNF"` in
a `"Status"` column is retained and receives ladder points. -/
theorem c10_filter_only_literal_rnk :
    (∀ t : Table, "Rnk" ∉ t.cols → filterNonFinishers t = t.rows) ∧
      scoring_function
        (.dict [("st", .table ⟨["Pos", "Rider", "Team", "Status"],
          [[("Pos", "1"), ("Rider", "A"), ("Team", "T1"), ("Status", "DNF")],
           [("Pos", "2"), ("Rider", "B"), ("Team", "T2"), ("Status", "")]]⟩)])
        ["st"] [] "Pos" (.ladder [10, 5]) none true false =
        .ok (some ⟨["Pos"], [(("A", "T1"), [("Pos", 10)]), (("B", "T2"), [("Pos", 5)])]⟩) := by
  constructor
  · intro t h
    unfold filterNonFinishers
    rw [if_neg h]
  · decide

/-- Witness for C10: a concrete table whose only status codes live in a
`"Status"` column keeps all rows through the non-finisher filter. -/
theorem c10_filter_only_literal_rnk_witness :
    filterNonFinishers ⟨["Pos", "Rider", "Team", "Status"],
        [[("Pos", "1"), ("Rider", "A"), ("Team", "T1"), ("Status", "DNF")],
         [("Pos", "2"), ("Rider", "B"), ("Team", "T2"), ("Status", "")]]⟩ =
      [[("Pos", "1"), ("Rider", "A"), ("Team", "T1"), ("Status", "DNF")],
       [("Pos", "2"), ("Rider", "B"), ("Team", "T2"), ("Status", "")]] :=
  c10_filter_only_literal_rnk.1
    ⟨["Pos", "Rider", "Team", "Status"],
      [[("Pos", "1"), ("Rider", "A"), ("Team", "T1"), ("Status", "DNF")],
       [("Pos", "2"), ("Rider", "B"), ("Team", "T2"), ("Status", "")]]⟩
    (by decide)

theorem passPoints_mem {c : String} {l : List (Row × Int)} {out : List PRow}
    (h : passPoints c l = .ok out) :
    ∀ p ∈ out, ∃ rn ∈ l, p.1 = cellVal rn.1 "Rider" ∧ p.2.1 = cellVal rn.1 "Team" := by
  induction l generalizing out with
  | nil =>
    simp only [passPoints] at h
    injection h with h2
    subst h2
    intro p hp
    simp at hp
  | cons rn rs ih =>
    obtain ⟨r, n⟩ := rn
    simp only [passPoints] at h
    cases hpi : parseInt? (cellVal r c) with
    | none => rw [hpi] at h; cases h
    | some v =>
      rw [hpi] at h
      cases hrec : passPoints c rs with
      | error e => rw [hrec] at h; cases h
      | ok ps =>
        rw [hrec] at h
        injection h with h2
        subst h2
        intro p hp
        rcases List.mem_cons.mp hp with rfl | hp2
        · exact ⟨(r, n), List.mem_cons_self _ _, rfl, rfl⟩
        · obtain ⟨rn2, hm, he⟩ := ih hrec p hp2
          exact ⟨rn2, List.mem_cons_of_mem _ hm, he⟩

theorem parseRanks_mem {rank_by : String} {rows : List Row} {out : List (Row × Int)}
    (h : parseRanks rank_by rows = .ok out) : ∀ rn ∈ out, rn.1 ∈ rows := by
  induction rows generalizing out with
  | nil =>
    simp only [parseRanks] at h
    injection h with h2
    subst h2
    intro rn hrn
    simp at hrn
  | cons r rs ih =>
    simp only [parseRanks] at h
    cases hpi : parseInt? (cellVal r rank_by) with
    | none => rw [hpi] at h; cases h
    | some n =>
      rw [hpi] at h
      cases hrec : parseRanks rank_by rs with
      | error e => rw [hrec] at h; cases h
      | ok ps =>
        rw [hrec] at h
        injection h with h2
        subst h2
        intro rn hrn
        rcases List.mem_cons.mp hrn with rfl | hrn2
        · exact List.mem_cons_self _ _
        · exact List.mem_cons_of_mem _ (ih hrec rn hrn2)

theorem mem_filterNonFinishers {t : Table} {r : Row} (h : r ∈ filterNonFinishers t) :
    r ∈ t.rows ∧ ("Rnk" ∈ t.cols → cellVal r "Rnk" ∉ nonFinishers) := by
  unfold filterNonFinishers at h
  by_cases hc : "Rnk" ∈ t.cols
  · rw [if_pos hc] at h
    obtain ⟨hm, hd⟩ := List.mem_filter.mp h
    exact ⟨hm, fun _ => of_decide_eq_true hd⟩
  · rw [if_neg hc] at h
    exact ⟨h, fun hcc => absurd hcc hc⟩

theorem assignLadder_fst_mem {α : Type _} {rows : List α} {pts : List Int} {rp : α × Int}
    (h : rp ∈ assignLadder rows pts) : rp.1 ∈ rows := by
  obtain ⟨a, b⟩ := rp
  unfold assignLadder at h
  exact List.take_subset _ _ (List.mem_zip h).1

theorem scoreEligibleRows_mem {rank_by : String} {pts pts2 : PointsSpec} {asc : Bool}
    {rows : List Row} {l : List PRow}
    (h : scoreEligibleRows rank_by pts asc rows = .ok (l, pts2)) :
    ∀ p ∈ l, ∃ r ∈ rows, p.1 = cellVal r "Rider" ∧ p.2.1 = cellVal r "Team" := by
  unfold scoreEligibleRows at h
  cases hparse : parseRanks rank_by rows with
  | error e => rw [hparse] at h; cases h
  | ok parsed =>
    rw [hparse] at h
    cases pts with
    | column c =>
      simp only at h
      cases hpass : passPoints c (List.insertionSort (rankLE asc) parsed) with
      | error e => rw [hpass] at h; cases h
      | ok prs =>
        rw [hpass] at h
        injection h with h2
        have h3 : prs = l := congrArg Prod.fst h2
        subst h3
        intro p hp
        obtain ⟨rn, hrn, he1, he2⟩ := passPoints_mem hpass p hp
        have hrn2 := (List.mem_insertionSort _).mp hrn
        exact ⟨rn.1, parseRanks_mem hparse rn hrn2, he1, he2⟩
    | ladder ll =>
      simp only at h
      injection h with h2
      have h3 : (assignLadder (List.insertionSort (rankLE asc) parsed) ll).map
          (fun rp => (cellVal rp.1.1 "Rider", cellVal rp.1.1 "Team", rp.2)) = l :=
        congrArg Prod.fst h2
      intro p hp
      rw [← h3] at hp
      obtain ⟨rp, hrp, hpe⟩ := List.mem_map.mp hp
      have h4 := assignLadder_fst_mem hrp
      have h5 := (List.mem_insertionSort _).mp h4
      refine ⟨rp.1.1, parseRanks_mem hparse rp.1 h5, ?_, ?_⟩
      · rw [← hpe]
      · rw [← hpe]

theorem processSubtable_mem {rank_by : String} {pts pts2 : PointsSpec} {asc strict : Bool}
    {t : Table} {l : List PRow}
    (h : processSubtable rank_by pts asc strict t = .ok (some l, pts2)) :
    ∀ p ∈ l, ∃ r ∈ filterNonFinishers t,
      p.1 = cellVal r "Rider" ∧ p.2.1 = cellVal r "Team" := by
  unfold processSubtable at h
  split at h <;> split at h <;> dsimp only at h
  · split at h
    · cases h
    · cases hc : scoreEligibleRows rank_by pts asc (filterNonFinishers t) with
      | error e => rw [hc] at h; cases h
      | ok pr =>
        obtain ⟨prs, ptsb⟩ := pr
        rw [hc] at h
        simp only at h
        injection h with h2
        have h3 : some prs = some l := congrArg Prod.fst h2
        injection h3 with h4
        subst h4
        exact scoreEligibleRows_mem hc
  · split at h <;> cases h
  · split at h
    · simp at h
    · cases hc : scoreEligibleRows rank_by pts asc (filterNonFinishers t) with
      | error e => rw [hc] at h; cases h
      | ok pr =>
        obtain ⟨prs, ptsb⟩ := pr
        rw [hc] at h
        simp only at h
        injection h with h2
        have h3 : some prs = some l := congrArg Prod.fst h2
        injection h3 with h4
        subst h4
        exact scoreEligibleRows_mem hc
  · split at h <;> simp at h

theorem processAll_mem {rank_by : String} {asc strict : Bool} {kf : List String}
    {subs : List (String × Results)} {pts : PointsSpec} {ls : List (List PRow)}
    (h : processAll rank_by asc strict kf pts subs = .ok ls) :
    ∀ l ∈ ls, ∃ st ∈ subs, st.1 ∉ kf ∧ ∃ t pts0 pts3, st.2 = Results.table t ∧
      processSubtable rank_by pts0 asc strict t = .ok (some l, pts3) := by
  induction subs generalizing pts ls with
  | nil =>
    simp only [processAll] at h
    injection h with h2
    subst h2
    intro l hl
    simp at hl
  | cons st rest ih =>
    obtain ⟨nm, child⟩ := st
    simp only [processAll] at h
    split at h
    · rename_i hin
      intro l hl
      obtain ⟨st2, hm, hrest⟩ := ih h l hl
      exact ⟨st2, List.mem_cons_of_mem _ hm, hrest⟩
    · rename_i hnotin
      split at h
      · rename_i t
        split at h
        · cases h
        · rename_i resv ptsb hsubp
          split at h
          · cases h
          · rename_i ls2 hrec
            cases resv with
            | none =>
              injection h with h2
              subst h2
              intro l hl
              obtain ⟨st2, hm, hrest⟩ := ih hrec l hl
              exact ⟨st2, List.mem_cons_of_mem _ hm, hrest⟩
            | some l0 =>
              injection h with h2
              subst h2
              intro l hl
              rcases List.mem_cons.mp hl with rfl | hl2
              · exact ⟨(nm, .table t), List.mem_cons_self _ _, hnotin, t, pts, ptsb,
                  rfl, hsubp⟩
              · obtain ⟨st2, hm, hrest⟩ := ih hrec l hl2
                exact ⟨st2, List.mem_cons_of_mem _ hm, hrest⟩
      · cases h

theorem finalizePodium_key_mem {name : String} {prows : List PRow} {row : MRow}
    (h : row ∈ (finalizePodium name prows).rows) :
    ∃ p ∈ prows, row.1 = (p.1, p.2.1) := by
  unfold finalizePodium at h
  have h2 := (List.mem_insertionSort _).mp h
  unfold groupRows at h2
  obtain ⟨k, hk, hrow⟩ := List.mem_map.mp h2
  have hk2 := (List.mem_insertionSort _).mp hk
  unfold keysOf at hk2
  have hk3 := List.mem_dedup.mp hk2
  obtain ⟨mr, hmr, hfst⟩ := List.mem_map.mp hk3
  obtain ⟨p, hp, hmp⟩ := List.mem_map.mp hmr
  refine ⟨p, hp, ?_⟩
  rw [← hrow]
  simp only
  rw [← hfst, ← hmp]

/-- Claim C5: a competitor all of whose rows carry a non-finisher code
in the `"Rnk"` column never appears in a rule's output points table,
in ladder mode and in pass-through mode alike. -/
theorem c5_non_finishers_never_score
    (res : Results) (key kf : List String) (rank_by : String) (pts : PointsSpec)
    (name : Option String) (asc strict : Bool) (rider team : String) (node : Results)
    (hwalk : walk strict res key = .ok (some node))
    (hcode : ∀ st ∈ (subtablesOf node).getD [], st.1 ∉ kf →
      "Rnk" ∈ tableCols st.2 ∧
        ∀ r ∈ tableRows st.2, cellVal r "Rider" = rider → cellVal r "Team" = team →
          cellVal r "Rnk" ∈ nonFinishers)
    (f : Frame)
    (hf : scoring_function res key kf rank_by pts name asc strict = .ok (some f)) :
    (rider, team) ∉ f.rows.map Prod.fst := by
  unfold scoring_function at hf
  rw [hwalk] at hf
  dsimp only at hf
  cases hsub : subtablesOf node with
  | none =>
    rw [hsub] at hf
    cases strict <;> simp at hf
  | some subs =>
    rw [hsub] at hf
    dsimp only at hf
    cases hpa : processAll rank_by asc strict kf pts subs with
    | error e => rw [hpa] at hf; cases hf
    | ok podia =>
      rw [hpa] at hf
      simp only at hf
      split at hf
      · cases hf
      · injection hf with hf2
        injection hf2 with hf3
        intro hmem
        obtain ⟨row, hrow, hkey⟩ := List.mem_map.mp hmem
        rw [← hf3] at hrow
        obtain ⟨p, hp, hpk⟩ := finalizePodium_key_mem hrow
        obtain ⟨l, hl, hpl⟩ := List.mem_flatten.mp hp
        obtain ⟨st, hst, hnk, t, pts0, pts3, hchild, hsubp⟩ := processAll_mem hpa l hl
        have hcd := hcode st (by rw [hsub]; exact hst) hnk
        rw [hchild] at hcd
        simp only [tableCols, tableRows] at hcd
        obtain ⟨r, hrf, hr1, hr2⟩ := processSubtable_mem hsubp p hpl
        have hrr := mem_filterNonFinishers hrf
        have hnotin := hrr.2 hcd.1
        have hkeys : p.1 = rider ∧ p.2.1 = team := by
          have : (p.1, p.2.1) = (rider, team) := by rw [← hpk, hkey]
          exact ⟨congrArg Prod.fst this, congrArg Prod.snd this⟩
        exact hnotin (hcd.2 r hrr.1 (by rw [← hr1, hkeys.1]) (by rw [← hr2, hkeys.2]))

/-- Witness for C5: rider X (team T) is marked `DNF` in the only
subtable's `"Rnk"` column and is absent from the rule's output. -/
theorem c5_non_finishers_never_score_witness :
    (("X" : String), ("T" : String)) ∉
      (Frame.rows ⟨["Rnk"], [(("A", "T"), [("Rnk", 40)]), (("B", "U"), [("Rnk", 30)])]⟩).map
        Prod.fst := by
  refine c5_non_finishers_never_score
    (.dict [("st", .table ⟨["Rnk", "Rider", "Team"],
      [[("Rnk", "2"), ("Rider", "B"), ("Team", "U")],
       [("Rnk", "DNF"), ("Rider", "X"), ("Team", "T")],
       [("Rnk", "1"), ("Rider", "A"), ("Team", "T")]]⟩)])
    ["st"] [] "Rnk" (.ladder [50, 40, 30]) none true false "X" "T"
    (.table ⟨["Rnk", "Rider", "Team"],
      [[("Rnk", "2"), ("Rider", "B"), ("Team", "U")],
       [("Rnk", "DNF"), ("Rider", "X"), ("Team", "T")],
       [("Rnk", "1"), ("Rider", "A"), ("Team", "T")]]⟩)
    rfl ?_ _ (by decide)
  decide

theorem lookup_map_setCol_self (vs : List (String × Int)) (c : String) (v : Int)
    (h : (vs.lookup c).isSome = true) :
    (vs.map (fun p => if p.1 = c then (c, v) else p)).lookup c = some v := by
  induction vs with
  | nil => simp at h
  | cons p ps ih =>
    obtain ⟨k, w⟩ := p
    by_cases hk : k = c
    · subst hk
      simp [List.lookup_cons]
    · rw [List.lookup_cons] at h
      have hck : (c == k) = false := beq_eq_false_iff_ne.mpr (fun he => hk he.symm)
      rw [hck] at h
      simp only [List.map]
      rw [if_neg (by simpa using hk)]
      rw [List.lookup_cons, hck]
      exact ih h

theorem lookup_append_single_self (vs : List (String × Int)) (c : String) (v : Int)
    (h : vs.lookup c = none) :
    (vs ++ [(c, v)]).lookup c = some v := by
  induction vs with
  | nil => simp [List.lookup_cons]
  | cons p ps ih =>
    obtain ⟨k, w⟩ := p
    rw [List.lookup_cons] at h
    cases hck : (c == k) with
    | true => rw [hck] at h; cases h
    | false =>
      rw [hck] at h
      rw [List.cons_append, List.lookup_cons, hck]
      exact ih h

theorem lookup_setCol_self (vs : List (String × Int)) (c : String) (v : Int) :
    (setCol vs c v).lookup c = some v := by
  unfold setCol
  split
  · rename_i h
    exact lookup_map_setCol_self vs c v h
  · rename_i h
    exact lookup_append_single_self vs c v (Option.not_isSome_iff_eq_none.mp h)

theorem lookup_map_setCol_ne (vs : List (String × Int)) (c c2 : String) (v : Int)
    (h : c2 ≠ c) :
    (vs.map (fun p => if p.1 = c then (c, v) else p)).lookup c2 = vs.lookup c2 := by
  induction vs with
  | nil => simp
  | cons p ps ih =>
    obtain ⟨k, w⟩ := p
    by_cases hk : k = c
    · subst hk
      simp only [List.map, if_pos]
      rw [List.lookup_cons, List.lookup_cons, beq_eq_false_iff_ne.mpr h]
      dsimp only
      exact ih
    · simp only [List.map]
      rw [if_neg (by simpa using hk)]
      rw [List.lookup_cons, List.lookup_cons]
      cases hck : (c2 == k) with
      | true => rfl
      | false => dsimp only; exact ih

theorem lookup_append_single_ne (vs : List (String × Int)) (c c2 : String) (v : Int)
    (h : c2 ≠ c) : (vs ++ [(c, v)]).lookup c2 = vs.lookup c2 := by
  induction vs with
  | nil => simp [List.lookup_cons, beq_eq_false_iff_ne.mpr h]
  | cons p ps ih =>
    obtain ⟨k, w⟩ := p
    rw [List.cons_append, List.lookup_cons, List.lookup_cons]
    cases hck : (c2 == k) with
    | true => rfl
    | false => dsimp only; exact ih

theorem lookup_setCol_ne (vs : List (String × Int)) (c c2 : String) (v : Int)
    (h : c2 ≠ c) : (setCol vs c v).lookup c2 = vs.lookup c2 := by
  unfold setCol
  split
  · exact lookup_map_setCol_ne vs c c2 v h
  · exact lookup_append_single_ne vs c c2 v h

theorem scoring_function_cols {res : Results} {key kf : List String} {rank_by : String}
    {pts : PointsSpec} {name : Option String} {asc strict : Bool} {f : Frame}
    (h : scoring_function res key kf rank_by pts name asc strict = .ok (some f)) :
    f.cols = [name.getD rank_by] := by
  unfold scoring_function at h
  cases hw : walk strict res key with
  | error e => rw [hw] at h; cases h
  | ok onode =>
    rw [hw] at h
    cases onode with
    | none => simp at h
    | some node =>
      dsimp only at h
      cases hs : subtablesOf node with
      | none =>
        rw [hs] at h
        dsimp only at h
        cases strict <;> simp at h
      | some subs =>
        rw [hs] at h
        dsimp only at h
        cases hp : processAll rank_by asc strict kf pts subs with
        | error e => rw [hp] at h; cases h
        | ok podia =>
          rw [hp] at h
          dsimp only at h
          split at h
          · simp at h
          · injection h with h2
            injection h2 with h3
            rw [← h3]
            rfl

theorem collectPodia_cols {res : Results} {rules : List Rule} {fs : List Frame}
    (h : collectPodia res rules = .ok fs) :
    ∀ g ∈ fs, ∃ r ∈ rules, g.cols = [r.name.getD r.rank_by] := by
  induction rules generalizing fs with
  | nil =>
    simp only [collectPodia] at h
    injection h with h2
    subst h2
    intro g hg
    simp at hg
  | cons r rs ih =>
    simp only [collectPodia] at h
    cases he : evalRule res r with
    | error e => rw [he] at h; cases h
    | ok p =>
      rw [he] at h
      cases hc : collectPodia res rs with
      | error e => rw [hc] at h; cases h
      | ok ps =>
        rw [hc] at h
        injection h with h2
        subst h2
        cases p with
        | none =>
          intro g hg
          obtain ⟨r2, hm, hcols⟩ := ih hc g hg
          exact ⟨r2, List.mem_cons_of_mem _ hm, hcols⟩
        | some g0 =>
          intro g hg
          rcases List.mem_cons.mp hg with rfl | hg2
          · exact ⟨r, List.mem_cons_self _ _, scoring_function_cols he⟩
          · obtain ⟨r2, hm, hcols⟩ := ih hc g hg2
            exact ⟨r2, List.mem_cons_of_mem _ hm, hcols⟩

theorem mem_mergeFrames_cols {fs : List Frame} {c : String} :
    c ∈ (mergeFrames fs).cols ↔ ∃ g ∈ fs, c ∈ g.cols := by
  unfold mergeFrames
  rw [List.mem_dedup, List.mem_flatten]
  constructor
  · rintro ⟨l, hl, hc⟩
    obtain ⟨g, hg, rfl⟩ := List.mem_map.mp hl
    exact ⟨g, hg, hc⟩
  · rintro ⟨g, hg, hc⟩
    exact ⟨g.cols, List.mem_map_of_mem _ hg, hc⟩

theorem addTotal_row_total (M : Frame) (pcols : List String)
    (hpc : ∀ c ∈ pcols, c ≠ "Total") (row : MRow)
    (hrow : row ∈ (sortByTotal (addTotal pcols M)).rows) :
    (row.2.lookup "Total").getD 0 =
      (pcols.map (fun c => (row.2.lookup c).getD 0)).sum := by
  unfold sortByTotal at hrow
  have h2 := (List.mem_insertionSort _).mp hrow
  unfold addTotal at h2
  obtain ⟨r, hr, hre⟩ := List.mem_map.mp h2
  rw [← hre]
  simp only
  rw [lookup_setCol_self]
  have hmap : pcols.map (fun c => ((setCol r.2 "Total" (sumOverCols r.2 pcols)).lookup c).getD 0) =
      pcols.map (fun c => (r.2.lookup c).getD 0) :=
    List.map_congr_left (fun c hc => by rw [lookup_setCol_ne _ _ _ _ (hpc c hc)])
  rw [hmap]
  rfl

/-- Claim C6: in every ledger produced by `score_stage` (when no rule's
output column is named `"Total"`) and by `score_race`, the `Total` cell
of each row equals the sum of that row's per-rule point columns, an
absent column contributing 0; `Total` is recomputed from the merged rule
columns, never carried over. -/
theorem c6_total_recomputed :
    (∀ res rules f, (∀ r ∈ rules, r.name.getD r.rank_by ≠ "Total") →
      score_stage res rules = .ok (some f) →
      ∀ row ∈ f.rows, (row.2.lookup "Total").getD 0 =
        ((f.cols.filter (fun c => decide (c ≠ "Total"))).map
          (fun c => (row.2.lookup c).getD 0)).sum) ∧
    (∀ stages srules rrules b f, score_race stages srules rrules b = .ok (some f) →
      ∀ row ∈ f.rows, (row.2.lookup "Total").getD 0 =
        ((f.cols.filter (fun c => decide (c ≠ "Total"))).map
          (fun c => (row.2.lookup c).getD 0)).sum) := by
  constructor
  · intro res rules f hn h row hrow
    unfold score_stage at h
    cases hc : collectPodia res rules with
    | error e => rw [hc] at h; cases h
    | ok podia =>
      rw [hc] at h
      dsimp only at h
      split at h
      · simp at h
      · injection h with h2
        injection h2 with h3
        have hTot : "Total" ∉ (mergeFrames podia).cols := by
          intro hmem
          obtain ⟨g, hg, hcg⟩ := mem_mergeFrames_cols.mp hmem
          obtain ⟨r, hrr, hcols⟩ := collectPodia_cols hc g hg
          rw [hcols] at hcg
          simp at hcg
          exact hn r hrr hcg.symm
        have hcolsA : f.cols = (mergeFrames podia).cols ++ ["Total"] := by
          rw [← h3]
          unfold sortByTotal addTotal
          simp only
          rw [if_neg hTot]
        have hfilter : f.cols.filter (fun c => decide (c ≠ "Total")) =
            (mergeFrames podia).cols := by
          rw [hcolsA, List.filter_append]
          have h4 : List.filter (fun c => decide (c ≠ "Total")) ["Total"] = [] := by decide
          rw [h4, List.append_nil]
          exact List.filter_eq_self.mpr
            (fun c hcm => decide_eq_true (fun he => hTot (he ▸ hcm)))
        rw [hfilter]
        refine addTotal_row_total (mergeFrames podia) (mergeFrames podia).cols
          (fun c hcm he => hTot (he ▸ hcm)) row ?_
        rw [h3]
        exact hrow
  · intro stages srules rrules b f h row hrow
    unfold score_race at h
    cases hp1 : (if b then collectStageLedgers srules stages else .ok []) with
    | error e => rw [hp1] at h; cases h
    | ok podia1 =>
      rw [hp1] at h
      dsimp only at h
      cases hp2 : (match stages.getLast? with
          | none => Except.ok []
          | some s => collectPodia s rrules) with
      | error e => rw [hp2] at h; cases h
      | ok podia2 =>
        rw [hp2] at h
        dsimp only at h
        split at h
        · simp at h
        · injection h with h2
          injection h2 with h3
          have hpc : ∀ c ∈ (mergeFrames (podia1 ++ podia2)).cols.filter
              (fun c => decide (c ≠ "Total")), c ≠ "Total" :=
            fun c hcm => of_decide_eq_true (List.mem_filter.mp hcm).2
          have hcolsA : f.cols = (if "Total" ∈ (mergeFrames (podia1 ++ podia2)).cols
              then (mergeFrames (podia1 ++ podia2)).cols
              else (mergeFrames (podia1 ++ podia2)).cols ++ ["Total"]) := by
            rw [← h3]
            rfl
          have hfilter : f.cols.filter (fun c => decide (c ≠ "Total")) =
              (mergeFrames (podia1 ++ podia2)).cols.filter
                (fun c => decide (c ≠ "Total")) := by
            rw [hcolsA]
            split
            · rfl
            · rw [List.filter_append]
              have h4 : List.filter (fun c => decide (c ≠ "Total")) ["Total"] = [] := by
                decide
              rw [h4, List.append_nil]
          rw [hfilter]
          refine addTotal_row_total (mergeFrames (podia1 ++ podia2)) _ hpc row ?_
          rw [h3]
          exact hrow

/-- Witness for C6: in a concrete two-rule stage ledger the stored
`Total` (50) equals the sum of the row's rule columns (40 + 10). -/
theorem c6_total_recomputed_witness :
    (([("P1", 40), ("P2", 10), ("Total", 50)] : List (String × Int)).lookup "Total").getD 0 =
      (((["P1", "P2", "Total"] : List String).filter (fun c => decide (c ≠ "Total"))).map
        (fun c =>
          (([("P1", 40), ("P2", 10), ("Total", 50)] : List (String × Int)).lookup c).getD 0)).sum := by
  have h := c6_total_recomputed.1
    (.dict [("st", .table ⟨["Rnk", "Rider", "Team"],
      [[("Rnk", "2"), ("Rider", "B"), ("Team", "U")],
       [("Rnk", "1"), ("Rider", "A"), ("Team", "T")]]⟩)])
    [⟨["st"], [], "Rnk", .ladder [50, 40, 30], some "P1", true, false⟩,
     ⟨["st"], [], "Rnk", .ladder [10], some "P2", true, false⟩]
    ⟨["P1", "P2", "Total"],
      [(("A", "T"), [("P1", 40), ("P2", 10), ("Total", 50)]),
       (("B", "U"), [("P1", 30), ("P2", 0), ("Total", 30)])]⟩
    (by decide) (by decide)
  exact h (("A", "T"), [("P1", 40), ("P2", 10), ("Total", 50)]) (by decide)

theorem find?_map_keys (g : Key → List (String × Int)) (l : List Key) (k : Key) :
    (l.map (fun k2 => (k2, g k2))).find? (fun r => decide (r.1 = k)) =
      (l.find? (fun k2 => decide (k2 = k))).map (fun k2 => (k2, g k2)) := by
  induction l with
  | nil => rfl
  | cons a tl ih =>
    by_cases ha : a = k
    · simp only [List.map]
      rw [List.find?_cons_of_pos _ (by simpa using ha),
        List.find?_cons_of_pos _ (by simpa using ha)]
      rfl
    · simp only [List.map]
      rw [List.find?_cons_of_neg _ (by simpa using ha),
        List.find?_cons_of_neg _ (by simpa using ha)]
      exact ih

theorem find?_key_eq (l : List Key) (k : Key) :
    l.find? (fun k2 => decide (k2 = k)) = if k ∈ l then some k else none := by
  induction l with
  | nil => simp
  | cons a tl ih =>
    by_cases ha : a = k
    · subst ha
      rw [List.find?_cons_of_pos _ (by simp), if_pos (List.mem_cons_self _ _)]
    · rw [List.find?_cons_of_neg _ (by simpa using ha), ih]
      have hka : ¬ k = a := fun he => ha he.symm
      by_cases hm : k ∈ tl
      · rw [if_pos hm, if_pos (List.mem_cons_of_mem _ hm)]
      · rw [if_neg hm, if_neg (by simp [List.mem_cons, hka, hm])]

theorem find?_groupRows (cols : List String) (rws : List MRow) (k : Key) :
    (groupRows cols rws).find? (fun r => decide (r.1 = k)) =
      if k ∈ rws.map Prod.fst then some (k, cols.map (fun c => (c, sumAt rws k c)))
      else none := by
  unfold groupRows
  rw [find?_map_keys, find?_key_eq]
  by_cases hm : k ∈ rws.map Prod.fst
  · rw [if_pos, if_pos hm]
    · rfl
    · exact (List.mem_insertionSort _).mpr (List.mem_dedup.mpr hm)
  · rw [if_neg, if_neg hm]
    · rfl
    · exact fun hs => hm (List.mem_dedup.mp ((List.mem_insertionSort _).mp hs))

theorem lookup_map_pair (g : String → Int) (cols : List String) (c : String) :
    (cols.map (fun c2 => (c2, g c2))).lookup c = if c ∈ cols then some (g c) else none := by
  induction cols with
  | nil => simp
  | cons a tl ih =>
    simp only [List.map]
    rw [List.lookup_cons]
    by_cases ha : c = a
    · subst ha
      simp
    · rw [beq_eq_false_iff_ne.mpr ha]
      dsimp only
      rw [ih]
      by_cases hm : c ∈ tl
      · rw [if_pos hm, if_pos (List.mem_cons_of_mem _ hm)]
      · rw [if_neg hm, if_neg (by simp [List.mem_cons, ha, hm])]

theorem frameVal_mergeFrames (fs : List Frame) (k : Key) (c : String) :
    frameVal (mergeFrames fs) k c =
      if k ∈ ((fs.map Frame.rows).flatten).map Prod.fst ∧
          c ∈ ((fs.map Frame.cols).flatten).dedup
      then sumAt ((fs.map Frame.rows).flatten) k c else 0 := by
  unfold frameVal mergeFrames
  simp only
  rw [find?_groupRows]
  by_cases hk : k ∈ ((fs.map Frame.rows).flatten).map Prod.fst
  · rw [if_pos hk]
    simp only
    rw [lookup_map_pair]
    by_cases hc : c ∈ ((fs.map Frame.cols).flatten).dedup
    · rw [if_pos hc, if_pos ⟨hk, hc⟩]
      rfl
    · rw [if_neg hc, if_neg (fun h2 => hc h2.2)]
      rfl
  · rw [if_neg hk, if_neg (fun h2 => hk h2.1)]

theorem sumAt_perm {rws1 rws2 : List MRow} (h : rws1.Perm rws2) (k : Key) (c : String) :
    sumAt rws1 k c = sumAt rws2 k c := by
  unfold sumAt
  exact List.Perm.sum_eq ((h.filter _).map _)

theorem frameVal_addTotal_total (pcols : List String) (M : Frame) (k : Key) :
    frameVal (addTotal pcols M) k "Total" =
      (match M.rows.find? (fun r => decide (r.1 = k)) with
       | none => 0
       | some r => sumOverCols r.2 pcols) := by
  unfold frameVal addTotal
  simp only
  have hfind : (M.rows.map (fun r => (r.1, setCol r.2 "Total" (sumOverCols r.2 pcols)))).find?
      (fun r => decide (r.1 = k)) =
      (M.rows.find? (fun r => decide (r.1 = k))).map
        (fun r => (r.1, setCol r.2 "Total" (sumOverCols r.2 pcols))) := by
    induction M.rows with
    | nil => rfl
    | cons a tl ih =>
      by_cases ha : a.1 = k
      · simp only [List.map]
        rw [List.find?_cons_of_pos _ (by simpa using ha),
          List.find?_cons_of_pos _ (by simpa using ha)]
        rfl
      · simp only [List.map]
        rw [List.find?_cons_of_neg _ (by simpa using ha),
          List.find?_cons_of_neg _ (by simpa using ha)]
        exact ih
  rw [hfind]
  cases M.rows.find? (fun r => decide (r.1 = k)) with
  | none => rfl
  | some r =>
    simp only [Option.map]
    rw [lookup_setCol_self]
    rfl

theorem sumOverCols_grouped (cols pcols : List String) (rws : List MRow) (k : Key)
    (hsub : ∀ c ∈ pcols, c ∈ cols) :
    sumOverCols (cols.map (fun c => (c, sumAt rws k c))) pcols =
      (pcols.map (fun c => sumAt rws k c)).sum := by
  unfold sumOverCols
  exact congrArg List.sum (List.map_congr_left
    (fun c hc => by rw [lookup_map_pair, if_pos (hsub c hc)]; rfl))

theorem filter_eq_key_of_nodup (l : List Key) (hnd : l.Nodup) (k : Key) :
    l.filter (fun k2 => decide (k2 = k)) = if k ∈ l then [k] else [] := by
  induction l with
  | nil => simp
  | cons a tl ih =>
    obtain ⟨hna, hndtl⟩ := List.nodup_cons.mp hnd
    by_cases ha : a = k
    · subst ha
      rw [List.filter_cons_of_pos (by simp), if_pos (List.mem_cons_self _ _)]
      have htl : tl.filter (fun k2 => decide (k2 = a)) = [] := by
        rw [List.filter_eq_nil_iff]
        intro b hb
        simp only [decide_eq_true_eq]
        exact fun he => hna (he ▸ hb)
      rw [ih hndtl, if_neg hna]
    · rw [List.filter_cons_of_neg (by simpa using ha), ih hndtl]
      have hka : ¬ k = a := fun he => ha he.symm
      by_cases hm : k ∈ tl
      · rw [if_pos hm, if_pos (List.mem_cons_of_mem _ hm)]
      · rw [if_neg hm, if_neg (by simp [List.mem_cons, hka, hm])]

theorem lookup_eq_none_of_forall {vs : List (String × Int)} {c : String}
    (h : ∀ p ∈ vs, p.1 ≠ c) : vs.lookup c = none := by
  induction vs with
  | nil => rfl
  | cons p ps ih =>
    obtain ⟨kk, w⟩ := p
    rw [List.lookup_cons]
    have hne : (c == kk) = false :=
      beq_eq_false_iff_ne.mpr (fun he => h (kk, w) (List.mem_cons_self _ _) he.symm)
    rw [hne]
    exact ih (fun p hp => h p (List.mem_cons_of_mem _ hp))

theorem sumAt_eq_zero_of_no_col {rws : List MRow} {c : String}
    (h : ∀ r ∈ rws, ∀ p ∈ r.2, p.1 ≠ c) (k : Key) : sumAt rws k c = 0 := by
  unfold sumAt
  apply List.sum_eq_zero
  intro x hx
  obtain ⟨r, hr, rfl⟩ := List.mem_map.mp hx
  rw [lookup_eq_none_of_forall (fun p hp => h r (List.mem_filter.mp hr).1 p hp)]
  rfl

theorem groupRows_keys_nodup (cols : List String) (rws : List MRow) :
    ((groupRows cols rws).map Prod.fst).Nodup := by
  unfold groupRows
  rw [List.map_map]
  have h2 : (Prod.fst ∘ fun k => (k, cols.map (fun c => (c, sumAt rws k c)))) = id := rfl
  rw [h2, List.map_id]
  exact ((List.perm_insertionSort keyLE (keysOf rws)).nodup_iff).mpr
    (List.nodup_dedup _)

theorem sumAt_groupRows (cols : List String) (rws : List MRow) (k : Key) (c : String)
    (hc : c ∈ cols) : sumAt (groupRows cols rws) k c = sumAt rws k c := by
  unfold sumAt
  conv =>
    lhs
    rw [show groupRows cols rws = (List.insertionSort keyLE (keysOf rws)).map
      (fun k2 => (k2, cols.map (fun c2 => (c2, sumAt rws k2 c2)))) from rfl]
  rw [List.filter_map]
  have hpred : ((fun r : MRow => decide (r.1 = k)) ∘
      (fun k2 => (k2, cols.map (fun c2 => (c2, sumAt rws k2 c2))))) =
      (fun k2 => decide (k2 = k)) := rfl
  rw [hpred]
  have hnd : (List.insertionSort keyLE (keysOf rws)).Nodup :=
    ((List.perm_insertionSort keyLE (keysOf rws)).nodup_iff).mpr (List.nodup_dedup _)
  rw [filter_eq_key_of_nodup _ hnd k]
  by_cases hm : k ∈ List.insertionSort keyLE (keysOf rws)
  · rw [if_pos hm]
    simp only [List.map, List.sum_cons, List.sum_nil]
    rw [lookup_map_pair, if_pos hc]
    simp [sumAt]
  · rw [if_neg hm]
    have hknot : k ∉ rws.map Prod.fst :=
      fun h2 => hm ((List.mem_insertionSort _).mpr (List.mem_dedup.mpr h2))
    have hfil : rws.filter (fun r => decide (r.1 = k)) = [] := by
      rw [List.filter_eq_nil_iff]
      intro r hr
      simp only [decide_eq_true_eq]
      exact fun he => hknot (he ▸ List.mem_map_of_mem Prod.fst hr)
    simp [hfil]

theorem sumAt_groupRows_no_col (cols : List String) (rws : List MRow) (k : Key)
    (c : String) (hc : c ∉ cols) : sumAt (groupRows cols rws) k c = 0 := by
  apply sumAt_eq_zero_of_no_col
  intro r hr p hp
  unfold groupRows at hr
  obtain ⟨k2, hk2, rfl⟩ := List.mem_map.mp hr
  obtain ⟨c2, hc2, rfl⟩ := List.mem_map.mp hp
  exact fun he => hc (he ▸ hc2)

theorem sumAt_append (r1 r2 : List MRow) (k : Key) (c : String) :
    sumAt (r1 ++ r2) k c = sumAt r1 k c + sumAt r2 k c := by
  unfold sumAt
  rw [List.filter_append, List.map_append, List.sum_append]

theorem groupRows_keys (cols : List String) (rws : List MRow) :
    (groupRows cols rws).map Prod.fst = List.insertionSort keyLE (keysOf rws) := by
  unfold groupRows
  rw [List.map_map]
  have h2 : (Prod.fst ∘ fun k => (k, cols.map (fun c => (c, sumAt rws k c)))) = id := rfl
  rw [h2, List.map_id]

theorem mergeFrames_perm_val {fs fs2 : List Frame} (h : fs.Perm fs2) (k : Key)
    (c : String) : frameVal (mergeFrames fs) k c = frameVal (mergeFrames fs2) k c := by
  rw [frameVal_mergeFrames, frameVal_mergeFrames]
  have hrows : ((fs.map Frame.rows).flatten).Perm ((fs2.map Frame.rows).flatten) :=
    (h.map _).flatten
  have hcols : ((fs.map Frame.cols).flatten).Perm ((fs2.map Frame.cols).flatten) :=
    (h.map _).flatten
  have hkiff : k ∈ ((fs.map Frame.rows).flatten).map Prod.fst ↔
      k ∈ ((fs2.map Frame.rows).flatten).map Prod.fst := (hrows.map Prod.fst).mem_iff
  have hciff : c ∈ ((fs.map Frame.cols).flatten).dedup ↔
      c ∈ ((fs2.map Frame.cols).flatten).dedup := (hcols.dedup).mem_iff
  by_cases hkc : k ∈ ((fs.map Frame.rows).flatten).map Prod.fst ∧
      c ∈ ((fs.map Frame.cols).flatten).dedup
  · rw [if_pos hkc, if_pos ⟨hkiff.mp hkc.1, hciff.mp hkc.2⟩]
    exact sumAt_perm hrows k c
  · rw [if_neg hkc, if_neg (fun h2 => hkc ⟨hkiff.mpr h2.1, hciff.mpr h2.2⟩)]

theorem mergeFrames_perm_total {fs fs2 : List Frame} (h : fs.Perm fs2) (k : Key) :
    frameVal (addTotal ((mergeFrames fs).cols.filter (fun c => decide (c ≠ "Total")))
        (mergeFrames fs)) k "Total" =
      frameVal (addTotal ((mergeFrames fs2).cols.filter (fun c => decide (c ≠ "Total")))
        (mergeFrames fs2)) k "Total" := by
  rw [frameVal_addTotal_total, frameVal_addTotal_total]
  have hrows : ((fs.map Frame.rows).flatten).Perm ((fs2.map Frame.rows).flatten) :=
    (h.map _).flatten
  have hcols : ((fs.map Frame.cols).flatten).Perm ((fs2.map Frame.cols).flatten) :=
    (h.map _).flatten
  have e1 : (mergeFrames fs).rows =
      groupRows ((fs.map Frame.cols).flatten).dedup ((fs.map Frame.rows).flatten) := rfl
  have e2 : (mergeFrames fs2).rows =
      groupRows ((fs2.map Frame.cols).flatten).dedup ((fs2.map Frame.rows).flatten) := rfl
  have e1c : (mergeFrames fs).cols = ((fs.map Frame.cols).flatten).dedup := rfl
  have e2c : (mergeFrames fs2).cols = ((fs2.map Frame.cols).flatten).dedup := rfl
  rw [e1, e2, e1c, e2c, find?_groupRows, find?_groupRows]
  by_cases hk : k ∈ ((fs.map Frame.rows).flatten).map Prod.fst
  · have hk2 : k ∈ ((fs2.map Frame.rows).flatten).map Prod.fst :=
      ((hrows.map Prod.fst).mem_iff).mp hk
    rw [if_pos hk, if_pos hk2]
    dsimp only
    rw [sumOverCols_grouped _ _ _ _ (fun c hc => (List.mem_filter.mp hc).1),
      sumOverCols_grouped _ _ _ _ (fun c hc => (List.mem_filter.mp hc).1)]
    have hpc : (((fs.map Frame.cols).flatten).dedup.filter
        (fun c => decide (c ≠ "Total"))).Perm
        (((fs2.map Frame.cols).flatten).dedup.filter (fun c => decide (c ≠ "Total"))) :=
      (hcols.dedup).filter _
    have hstep : ((((fs.map Frame.cols).flatten).dedup.filter
        (fun c => decide (c ≠ "Total"))).map
          (fun c => sumAt ((fs.map Frame.rows).flatten) k c)).sum =
        ((((fs.map Frame.cols).flatten).dedup.filter
          (fun c => decide (c ≠ "Total"))).map
            (fun c => sumAt ((fs2.map Frame.rows).flatten) k c)).sum :=
      congrArg List.sum (List.map_congr_left (fun c _ => sumAt_perm hrows k c))
    rw [hstep]
    exact List.Perm.sum_eq (hpc.map _)
  · have hk2 : k ∉ ((fs2.map Frame.rows).flatten).map Prod.fst :=
      fun h2 => hk (((hrows.map Prod.fst).mem_iff).mpr h2)
    rw [if_neg hk, if_neg hk2]

theorem mergeFrames_nested_val {fs gs : List Frame} (hwf : ∀ f ∈ fs, FrameWF f)
    (k : Key) (c : String) :
    frameVal (mergeFrames (mergeFrames fs :: gs)) k c =
      frameVal (mergeFrames (fs ++ gs)) k c := by
  rw [frameVal_mergeFrames, frameVal_mergeFrames]
  have eL : (((mergeFrames fs :: gs).map Frame.rows).flatten) =
      (mergeFrames fs).rows ++ ((gs.map Frame.rows).flatten) := by simp
  have eLc : (((mergeFrames fs :: gs).map Frame.cols).flatten) =
      (mergeFrames fs).cols ++ ((gs.map Frame.cols).flatten) := by simp
  have eR : (((fs ++ gs).map Frame.rows).flatten) =
      ((fs.map Frame.rows).flatten) ++ ((gs.map Frame.rows).flatten) := by simp
  have eRc : (((fs ++ gs).map Frame.cols).flatten) =
      ((fs.map Frame.cols).flatten) ++ ((gs.map Frame.cols).flatten) := by simp
  rw [eL, eLc, eR, eRc]
  have ekeys : (mergeFrames fs).rows.map Prod.fst =
      List.insertionSort keyLE (keysOf ((fs.map Frame.rows).flatten)) :=
    groupRows_keys _ _
  have hkey : ∀ k2 : Key, k2 ∈ (mergeFrames fs).rows.map Prod.fst ↔
      k2 ∈ ((fs.map Frame.rows).flatten).map Prod.fst := by
    intro k2
    rw [ekeys, List.mem_insertionSort]
    exact List.mem_dedup
  have hcolM : ∀ c2 : String, c2 ∈ (mergeFrames fs).cols ↔
      c2 ∈ ((fs.map Frame.cols).flatten) := fun c2 => List.mem_dedup
  have hkiff : k ∈ ((mergeFrames fs).rows ++ ((gs.map Frame.rows).flatten)).map Prod.fst ↔
      k ∈ (((fs.map Frame.rows).flatten) ++ ((gs.map Frame.rows).flatten)).map Prod.fst := by
    rw [List.map_append, List.map_append, List.mem_append, List.mem_append]
    exact or_congr_left (hkey k)
  have hciff : c ∈ ((mergeFrames fs).cols ++ ((gs.map Frame.cols).flatten)).dedup ↔
      c ∈ (((fs.map Frame.cols).flatten) ++ ((gs.map Frame.cols).flatten)).dedup := by
    rw [List.mem_dedup, List.mem_dedup, List.mem_append, List.mem_append]
    exact or_congr_left (hcolM c)
  have hval : sumAt ((mergeFrames fs).rows ++ ((gs.map Frame.rows).flatten)) k c =
      sumAt (((fs.map Frame.rows).flatten) ++ ((gs.map Frame.rows).flatten)) k c := by
    rw [sumAt_append, sumAt_append]
    have hM : sumAt (mergeFrames fs).rows k c = sumAt ((fs.map Frame.rows).flatten) k c := by
      have eM : (mergeFrames fs).rows =
          groupRows (mergeFrames fs).cols ((fs.map Frame.rows).flatten) := rfl
      by_cases hcM : c ∈ (mergeFrames fs).cols
      · rw [eM]
        exact sumAt_groupRows _ _ _ _ hcM
      · have h0 : sumAt (groupRows (mergeFrames fs).cols
            ((fs.map Frame.rows).flatten)) k c = 0 :=
          sumAt_groupRows_no_col _ _ _ _ hcM
        have h1 : sumAt ((fs.map Frame.rows).flatten) k c = 0 := by
          apply sumAt_eq_zero_of_no_col
          intro r hr p hp
          obtain ⟨rl, hrl, hrin⟩ := List.mem_flatten.mp hr
          obtain ⟨f, hf, rfl⟩ := List.mem_map.mp hrl
          intro he
          apply hcM
          rw [hcolM c, List.mem_flatten]
          exact ⟨f.cols, List.mem_map_of_mem _ hf, he ▸ hwf f hf r hrin p hp⟩
        rw [eM, h0, h1]
    rw [hM]
  by_cases hcond : k ∈ ((mergeFrames fs).rows ++ ((gs.map Frame.rows).flatten)).map Prod.fst ∧
      c ∈ ((mergeFrames fs).cols ++ ((gs.map Frame.cols).flatten)).dedup
  · rw [if_pos hcond, if_pos ⟨hkiff.mp hcond.1, hciff.mp hcond.2⟩, hval]
  · rw [if_neg hcond, if_neg (fun h2 => hcond ⟨hkiff.mpr h2.1, hciff.mpr h2.2⟩)]

/-- Claim C9: merging event-level ledgers is order-insensitive:
permuting the merged frames leaves every `(Rider, Team)` key's per-rule
values and recomputed `Total` unchanged, and merging a pre-merged group
with further frames equals merging them all at once (associativity),
given the pandas invariant that rows only hold declared columns. -/
theorem c9_merge_commutative_associative :
    (∀ fs fs2 : List Frame, fs.Perm fs2 → ∀ (k : Key) (c : String),
      frameVal (mergeFrames fs) k c = frameVal (mergeFrames fs2) k c) ∧
    (∀ fs fs2 : List Frame, fs.Perm fs2 → ∀ k : Key,
      frameVal (addTotal ((mergeFrames fs).cols.filter (fun c => decide (c ≠ "Total")))
          (mergeFrames fs)) k "Total" =
        frameVal (addTotal ((mergeFrames fs2).cols.filter (fun c => decide (c ≠ "Total")))
          (mergeFrames fs2)) k "Total") ∧
    (∀ fs gs : List Frame, (∀ f ∈ fs, FrameWF f) → ∀ (k : Key) (c : String),
      frameVal (mergeFrames (mergeFrames fs :: gs)) k c =
        frameVal (mergeFrames (fs ++ gs)) k c) :=
  ⟨fun _ _ h k c => mergeFrames_perm_val h k c,
   fun _ _ h k => mergeFrames_perm_total h k,
   fun _ _ hwf k c => mergeFrames_nested_val hwf k c⟩

/-- Witness for C9: two concrete single-column ledgers merged in both
orders give the same value and Total at a shared key, and nested merging
agrees with flat merging. -/
theorem c9_merge_commutative_associative_witness :
    frameVal (mergeFrames [⟨["P1"], [(("A", "T"), [("P1", 4)])]⟩,
        ⟨["P2"], [(("A", "T"), [("P2", 7)])]⟩]) ("A", "T") "P2" =
      frameVal (mergeFrames [⟨["P2"], [(("A", "T"), [("P2", 7)])]⟩,
        ⟨["P1"], [(("A", "T"), [("P1", 4)])]⟩]) ("A", "T") "P2" ∧
    frameVal (mergeFrames (mergeFrames [⟨["P1"], [(("A", "T"), [("P1", 4)])]⟩] ::
        [⟨["P2"], [(("A", "T"), [("P2", 7)])]⟩])) ("A", "T") "P1" =
      frameVal (mergeFrames ([⟨["P1"], [(("A", "T"), [("P1", 4)])]⟩] ++
        [⟨["P2"], [(("A", "T"), [("P2", 7)])]⟩])) ("A", "T") "P1" := by
  constructor
  · exact c9_merge_commutative_associative.1
      [⟨["P1"], [(("A", "T"), [("P1", 4)])]⟩, ⟨["P2"], [(("A", "T"), [("P2", 7)])]⟩]
      [⟨["P2"], [(("A", "T"), [("P2", 7)])]⟩, ⟨["P1"], [(("A", "T"), [("P1", 4)])]⟩]
      (by decide) ("A", "T") "P2"
  · exact c9_merge_commutative_associative.2.2
      [⟨["P1"], [(("A", "T"), [("P1", 4)])]⟩] [⟨["P2"], [(("A", "T"), [("P2", 7)])]⟩]
      (by decide) ("A", "T") "P1"
